import Mathlib

/-!
Verification of the table-conversion post-processing pipeline
(`convert-tables.py`).  The Python source operates on strings with
`str.find`, slicing and `re.sub`/`re.finditer`; here strings are embedded
as `List Char` and every regular-expression operation used by the source is
embedded by an executable scanner with the same leftmost / greedy /
non-overlapping semantics.  Python floats are embedded as `Rat`: every
arithmetic step performed by the source (sums, divisions, rescaling) is
mirrored exactly, and division by zero, which raises `ZeroDivisionError`
in Python, is embedded as an explicit error value.
-/

namespace ConvertTables

/-- Whitespace test used by the embedding of the regex class `\s`
(ASCII range, which is what pandoc emits). -/
def pyIsSpace (c : Char) : Bool :=
  c = ' ' || c = '\t' || c = '\n' || c = '\r' || c = '\x0b' || c = '\x0c'

/-- Digit test used by the embedding of the regex class `\d`. -/
def pyIsDigit (c : Char) : Bool :=
  '0' ≤ c && c ≤ '9'

/-- Leftmost-occurrence splitter: `splitOnce pat s = some (pre, suf)` when
`s = pre ++ pat ++ suf` and `pat` occurs nowhere earlier.  This is the
embedding of Python's `str.find` and of the literal-pattern part of
`re.sub` scanning. -/
def splitOnce (pat : List Char) : List Char → Option (List Char × List Char)
  | [] => if pat.isEmpty then some ([], []) else none
  | c :: t =>
    if pat.isPrefixOf (c :: t) then some ([], (c :: t).drop pat.length)
    else
      match splitOnce pat t with
      | some (pre, suf) => some (c :: pre, suf)
      | none => none

/-- Occurrence of `pat` as a contiguous substring of `s`. -/
def Occurs (pat s : List Char) : Prop := ∃ a b, s = a ++ pat ++ b

/-- Boolean substring test, used to state marker-absence properties. -/
def containsSub (pat s : List Char) : Bool := (splitOnce pat s).isSome

/-! Marker strings used by `convert-tables.py` (braces written with
hex escapes). -/

/-- Table-block start marker of the longtable regex. -/
def beginLongtable : List Char := "\\begin\x7blongtable\x7d".data

/-- Table-block end marker of the longtable regex. -/
def endLongtable : List Char := "\\end\x7blongtable\x7d".data

/-- Header-end marker (Python `endTag = "\\endhead"`). -/
def endheadTag : List Char := "\\endhead".data

/-- Wrapper begin marker removed by `setColumnFormat`. -/
def beginMinipage : List Char := "\\begin\x7bminipage\x7d".data

/-- Wrapper end marker removed by `setColumnFormat`. -/
def endMinipage : List Char := "\\end\x7bminipage\x7d".data

/-- Body end marker used by `setLatexSpacing` (Python `"\\bottomrule"`). -/
def bottomruleTag : List Char := "\\bottomrule".data

/-- Row separator marker used by the stretch regexes. -/
def tabularnewlineTag : List Char := "\\tabularnewline".data

/-- Embedding of `re.sub(pattern, repl, s)` for a literal pattern: replace
every left-to-right non-overlapping occurrence of `pat` by `repl`,
continuing the scan after the replaced span (fuelled; each step consumes
at least one character of `s`, so `s.length + 1` fuel always suffices). -/
def replAllWithF (pat repl : List Char) : Nat → List Char → List Char
  | 0, s => s
  | fuel + 1, s =>
    match splitOnce pat s with
    | none => s
    | some (pre, suf) => pre ++ repl ++ replAllWithF pat repl fuel suf

/-- Wrapper of `replAllWithF` with sufficient fuel. -/
def replAllWith (pat repl s : List Char) : List Char :=
  replAllWithF pat repl (s.length + 1) s

/-- Embedding of `re.sub(re.escape(pat), "", s)` (deletion of every
non-overlapping occurrence, as the first substitution of
`setColumnFormat` does with `\end{minipage}`). -/
def replAll (pat s : List Char) : List Char := replAllWith pat [] s

/-- Embedding of `re.sub(pat + ".*", "", s)`: each occurrence of the
literal `pat` is deleted together with the rest of its line (`.` does not
match a newline), as the second substitution of `setColumnFormat` does
with `\begin{minipage}.*`. -/
def subLineRF (pat : List Char) : Nat → List Char → List Char
  | 0, s => s
  | fuel + 1, s =>
    match splitOnce pat s with
    | none => s
    | some (pre, suf) =>
      pre ++ subLineRF pat fuel (suf.dropWhile (fun c => c != '\n'))

/-- Wrapper of `subLineRF` with sufficient fuel. -/
def subLineR (pat s : List Char) : List Char :=
  subLineRF pat (s.length + 1) s

/-- Length, in characters, of the longest prefix of a whitespace run that
ends with a newline: this is exactly the span matched by the greedy
`^\s*\n` at a line start (the greedy `\s*` backtracks until the final
character is the newline, i.e. the match runs up to and including the
last newline of the whitespace run). -/
def lastNLlen : List Char → Option Nat
  | [] => none
  | c :: t =>
    match lastNLlen t with
    | some n => some (n + 1)
    | none => if c = '\n' then some 1 else none

/-- Embedding of `re.sub(r"^\s*\n", "", s, flags=re.MULTILINE)`.  The
anchored pattern can only match at a line start, and every match spans
whole whitespace-only lines including their final newline, so the scan
proceeds line-start to line-start: at each line start either the greedy
whitespace match is removed, or the line is emitted unchanged up to and
including its newline. -/
def delAuxF : Nat → List Char → List Char
  | 0, s => s
  | fuel + 1, s =>
    match lastNLlen (s.takeWhile pyIsSpace) with
    | some n => delAuxF fuel (s.drop n)
    | none =>
      match s.dropWhile (fun c => c != '\n') with
      | [] => s
      | _ :: r =>
        s.takeWhile (fun c => c != '\n') ++ '\n' :: delAuxF fuel r

/-- Python `deleteEmptyLines` (convert-tables.py line 151). -/
def deleteEmptyLines (output : List Char) : List Char :=
  delAuxF (output.length + 1) output

/-- Newline-terminated lines of a string: the contents (without the
newline) of every line that ends in a newline; a trailing fragment with
no newline is not included. -/
def linesAux : List Char → List Char → List (List Char)
  | _, [] => []
  | acc, c :: t =>
    if c = '\n' then acc :: linesAux [] t else linesAux (acc ++ [c]) t

/-- Wrapper of `linesAux` with empty accumulator. -/
def linesNT (s : List Char) : List (List Char) := linesAux [] s

/-- Greedy backtracking helper: try a continuation at every count from
`n` down to `0` and keep the first success.  This is the embedding of a
greedy `.*` (longest candidate first, backtracking on failure). -/
def tryDown {α : Type} (k : Nat → Option α) : Nat → Option α
  | 0 => k 0
  | n + 1 =>
    match k (n + 1) with
    | some r => some r
    | none => tryDown k n

/-- Tail of the width regex: `(\d+(?:\.\d+)?)\}\}` with greedy `\d+`.
Giving back digits would leave a digit where `\.` or `\}` is required, so
the greedy match is deterministic: a maximal digit run, an optional
fraction (maximal digit run after the dot), then the two closing braces.
Returns the captured number text and the rest of the input. -/
def numTail (w : List Char) : Option (List Char × List Char) :=
  let ds := w.takeWhile pyIsDigit
  if ds.isEmpty then none
  else
    match w.drop ds.length with
    | '.' :: w2 =>
      let fs := w2.takeWhile pyIsDigit
      if fs.isEmpty then none
      else
        match w2.drop fs.length with
        | '\x7d' :: '\x7d' :: rest => some (ds ++ '.' :: fs, rest)
        | _ => none
    | '\x7d' :: '\x7d' :: rest => some (ds, rest)
    | _ => none

/-- One match attempt of the column-width regex
`>\{(.*)\}.*p\{.*\\real\{(\d+(?:\.\d+)?)\}\}` at the start of `s`
(none of its pieces can match a newline, so each greedy `.*` ranges over
the rest of the current line only).  Backtracking order follows the
regex: the leftmost `.*` is reduced last.  On success returns
`((group1, group2), restAfterMatch)`. -/
def matchWidthAt (s : List Char) : Option ((List Char × List Char) × List Char) :=
  match s with
  | '>' :: '\x7b' :: t =>
    tryDown (fun i =>
      match t.drop i with
      | '\x7d' :: u =>
        tryDown (fun j =>
          match u.drop j with
          | 'p' :: '\x7b' :: v =>
            tryDown (fun k =>
              match v.drop k with
              | '\\' :: 'r' :: 'e' :: 'a' :: 'l' :: '\x7b' :: w =>
                match numTail w with
                | some (num, rest) => some ((t.take i, num), rest)
                | none => none
              | _ => none) ((v.takeWhile (fun c => c != '\n')).length)
          | _ => none) ((u.takeWhile (fun c => c != '\n')).length)
      | _ => none) ((t.takeWhile (fun c => c != '\n')).length)
  | _ => none

/-- Embedding of `re.finditer` for the column-width regex: scan left to
right, at each position attempt a match; on success emit the captures and
continue after the match (non-overlapping), otherwise advance one
character. -/
def widthMatchesF : Nat → List Char → List (List Char × List Char)
  | 0, _ => []
  | fuel + 1, s =>
    match matchWidthAt s with
    | some (groups, rest) => groups :: widthMatchesF fuel rest
    | none =>
      match s with
      | [] => []
      | _ :: t => widthMatchesF fuel t

/-- All `(format, widthText)` captures of the width regex over a header
region, in left-to-right order. -/
def columnMatches (part : List Char) : List (List Char × List Char) :=
  widthMatchesF (part.length + 1) part

/-- Numeric value of a digit list. -/
def digitsVal (l : List Char) : Nat :=
  l.foldl (fun a c => a * 10 + (c.toNat - '0'.toNat)) 0

/-- Embedding of Python `float(...)` on the text captured by
`(\d+(?:\.\d+)?)`: an integer part and an optional fraction, as an exact
rational. -/
def parseFloat (l : List Char) : Rat :=
  match splitOnce ['.'] l with
  | none => (digitsVal l : Rat)
  | some (ip, fp) => (digitsVal ip : Rat) + (digitsVal fp : Rat) / ((10 : Rat) ^ fp.length)

/-- Text before the first occurrence of the header-end marker, when that
marker is present — the region Python takes as `output[0:end]` with
`end = output.find("\endhead")`. -/
def headerPart (output : List Char) : Option (List Char) :=
  (splitOnce endheadTag output).map (fun pr => pr.1)

/-- Rescaling step of `getColumnSizes` (lines 129-133): every width is
multiplied by `(1 - margin) / sum(widths)`. -/
def scaledWidths (margin : Rat) (widths : List Rat) : List Rat :=
  widths.map (fun w => w * ((1 - margin) / widths.sum))

/-- Final part of `getColumnSizes` (lines 129-138): when the scale flag is
set or column ratios were (truthily) supplied, rescale to full width;
a zero total width would raise `ZeroDivisionError` in Python. -/
def scaleStep (widths : List Rat) (formats : List (List Char))
    (scaleToOne : Bool) (margin : Rat) (ratiosTruthy : Bool) :
    Except String (List Rat × List (List Char)) :=
  if scaleToOne || ratiosTruthy then
    if widths.sum = 0 then Except.error "ZeroDivisionError"
    else Except.ok (scaledWidths margin widths, formats)
  else Except.ok (widths, formats)

/-- Python `getColumnSizes` (convert-tables.py lines 99-138).  Mirrors the
source exactly: early empty return when `\endhead` is absent; width and
format extraction by the regex over the header region; `ValueError` when
no column matched; truthiness of `columnRatios` (an empty list behaves
like `None`); the `assert` on the ratio count; ratio normalisation; and
the optional rescale. -/
def getColumnSizes (output : List Char) (scaleToOne : Bool)
    (scaleToFullMargin : Rat) (columnRatios : Option (List Rat)) :
    Except String (List Rat × List (List Char)) :=
  match splitOnce endheadTag output with
  | none => Except.ok ([], [])
  | some (part, _) =>
    let ms := columnMatches part
    let widths := ms.map (fun m => parseFloat m.2)
    let formats := ms.map (fun m => m.1)
    if widths.length = 0 then Except.error "ValueError: Regex failed"
    else
      match columnRatios with
      | some rs =>
        if rs.isEmpty then
          scaleStep widths formats scaleToOne scaleToFullMargin false
        else if rs.length = widths.length then
          if rs.sum = 0 then Except.error "ZeroDivisionError"
          else
            scaleStep (rs.map (fun c => c / rs.sum)) formats
              scaleToOne scaleToFullMargin true
        else Except.error "AssertionError"
      | none => scaleStep widths formats scaleToOne scaleToFullMargin false

/-- Python `setColumnFormat` (convert-tables.py lines 141-148): remove all
`\end{minipage}` markers, then remove every `\begin{minipage}` together
with the rest of its line.  The `widths` and `formats` arguments are
accepted and ignored, exactly as in the source. -/
def setColumnFormat (output : List Char) (widths : List Rat)
    (formats : List (List Char)) : List Char :=
  let output1 := replAll endMinipage output
  subLineR beginMinipage output1

/-- Embedding of Python `str.find`: leftmost index or `-1`. -/
def pyFind (pat s : List Char) : Int :=
  match splitOnce pat s with
  | none => -1
  | some (pre, _) => (pre.length : Int)

/-- Embedding of Python slicing `s[a:b]` (negative indices count from the
end; out-of-range indices are clamped). -/
def pySlice (s : List Char) (a b : Int) : List Char :=
  let n : Int := (s.length : Int)
  let a' := if a < 0 then max 0 (n + a) else min a n
  let b' := if b < 0 then max 0 (n + b) else min b n
  (s.take b'.toNat).drop a'.toNat

/-- Python `setLatexSpacing` (convert-tables.py lines 83-96 and 51-55):
slice the cell body between `\endhead` and `\bottomrule` (with Python's
`find`/slice semantics when a tag is absent), append
`\addlinespace[spacing]` after every `\tabularnewline` inside it, and
re-assemble. -/
def setLatexSpacing (output : List Char) (spacing : List Char) : List Char :=
  let start := pyFind endheadTag output + (endheadTag.length : Int)
  let stop := pyFind bottomruleTag output
  let substring := pySlice output start stop
  let substring1 := replAllWith tabularnewlineTag
    (tabularnewlineTag ++ "\\addlinespace[".data ++ spacing ++ "]".data)
    substring
  pySlice output 0 start ++ substring1 ++ pySlice output stop (output.length : Int)

/-- Per-job LaTeX options read from the configuration group
(`config.get(...)` defaults mirrored by the `Option` types). -/
structure TableConfig where
  scaleColumnsToFull : Bool
  scaleColumnsToFullMargin : Rat
  columnRatios : Option (List Rat)
  rowSpacing : Option (List Char)

/-- Body of the per-block rewriter `postProcessLatexTable` inside
`postProcessLatexTables` (convert-tables.py lines 160-176): extract the
column sizes (propagating any error), strip the wrapper markup, apply the
optional row spacing (Python truthiness: an empty spacing string is
falsy), and delete blank lines. -/
def postProcessLatexTable (config : TableConfig) (table : List Char) :
    Except String (List Char) :=
  match getColumnSizes table config.scaleColumnsToFull
      config.scaleColumnsToFullMargin config.columnRatios with
  | Except.error e => Except.error e
  | Except.ok (widths, formats) =>
    let t1 := setColumnFormat table widths formats
    let t2 :=
      match config.rowSpacing with
      | some sp => if sp.isEmpty then t1 else setLatexSpacing t1 sp
      | none => t1
    Except.ok (deleteEmptyLines t2)

/-- Leftmost match of the block regex
`\begin\{longtable\}.*?\end\{longtable\}` (DOTALL, lazy): the match starts
at the first occurrence of the begin marker and, because `.*?` is lazy,
ends at the first occurrence of the end marker after it.  When the begin
marker never occurs, or no end marker follows the first begin marker,
there is no match anywhere (a later match would need an end marker in the
same suffix).  Returns `(before, block, after)`. -/
def findTable (s : List Char) : Option (List Char × List Char × List Char) :=
  match splitOnce beginLongtable s with
  | none => none
  | some (pre, suf) =>
    match splitOnce endLongtable suf with
    | none => none
    | some (mid, rest) =>
      some (pre, beginLongtable ++ mid ++ endLongtable, rest)

/-- Embedding of `re.sub` with a fallible replacement function for the
block regex: rewrite each non-overlapping block left to right, keep
everything in between, propagate the first error (a Python exception
raised inside the replacement callback aborts the whole `re.sub`). -/
def subTablesEF (f : List Char → Except String (List Char)) :
    Nat → List Char → Except String (List Char)
  | 0, s => Except.ok s
  | fuel + 1, s =>
    match findTable s with
    | none => Except.ok s
    | some (pre, block, rest) =>
      match f block with
      | Except.error e => Except.error e
      | Except.ok b1 =>
        match subTablesEF f fuel rest with
        | Except.error e => Except.error e
        | Except.ok r1 => Except.ok (pre ++ b1 ++ r1)

/-- Python `postProcessLatexTables` (convert-tables.py lines 156-178). -/
def postProcessLatexTables (config : TableConfig) (output : List Char) :
    Except String (List Char) :=
  subTablesEF (postProcessLatexTable config) (output.length + 1) output

/-- Decomposition of a text into its `(before, block)` parts and trailing
text, following exactly the scan of the block regex. -/
def tableDecompF : Nat → List Char → List (List Char × List Char) × List Char
  | 0, s => ([], s)
  | fuel + 1, s =>
    match findTable s with
    | none => ([], s)
    | some (pre, block, rest) =>
      let d := tableDecompF fuel rest
      ((pre, block) :: d.1, d.2)

/-- Wrapper of `tableDecompF` with sufficient fuel. -/
def tableDecomp (s : List Char) : List (List Char × List Char) × List Char :=
  tableDecompF (s.length + 1) s

/-- Re-assemble a decomposition: concatenate every `before ++ block` part
and the trailing text. -/
def glue (parts : List (List Char × List Char)) (tail : List Char) : List Char :=
  parts.foldr (fun p acc => p.1 ++ p.2 ++ acc) tail

/-- Execution shape produced by `run` (convert-tables.py lines 249-259):
either the configuration groups are processed sequentially in order, or
they are farmed to a process pool. -/
inductive ExecPlan (α : Type) where
  | sequential (configs : List α)
  | pool (configs : List α)
deriving DecidableEq

/-- Python `run` (convert-tables.py lines 249-259), reduced to the
scheduling decision it makes for the configuration groups. -/
def run {α : Type} (configs : List α) (parallel : Bool) : ExecPlan α :=
  if parallel then ExecPlan.pool configs else ExecPlan.sequential configs

/-- Parsed command-line arguments of the entry point (convert-tables.py
lines 262-287): all four flags, including the `--parallel` toggle. -/
structure CliArgs where
  dataDir : List Char
  rootDir : List Char
  configPath : List Char
  parallel : Bool

/-- The `__main__` block (convert-tables.py line 292): `run` is invoked
with the literal `parallel=False`, whatever `args.parallel` was. -/
def mainEntry {α : Type} (args : CliArgs) (configs : List α) : ExecPlan α :=
  run configs false

/-- Decidable equality for `Except`, used to evaluate concrete runs of the
embedded pipeline inside closed proofs. -/
instance instDecEqExcept {ε α : Type} [DecidableEq ε] [DecidableEq α] :
    DecidableEq (Except ε α) := fun a b =>
  match a, b with
  | Except.error x, Except.error y =>
    if h : x = y then Decidable.isTrue (congrArg Except.error h)
    else Decidable.isFalse (fun hc => h (Except.error.inj hc))
  | Except.error _, Except.ok _ => Decidable.isFalse (fun hc => Except.noConfusion hc)
  | Except.ok _, Except.error _ => Decidable.isFalse (fun hc => Except.noConfusion hc)
  | Except.ok x, Except.ok y =>
    if h : x = y then Decidable.isTrue (congrArg Except.ok h)
    else Decidable.isFalse (fun hc => h (Except.ok.inj hc))

/-! Concrete inputs used to exercise the embedded pipeline. -/

/-- Configuration with no scaling, no ratios, no spacing. -/
def cfgPlain : TableConfig := ⟨false, 0, none, none⟩

/-- Configuration with the scale-to-full flag and margin 1/10. -/
def cfgScale : TableConfig := ⟨true, 1/10, none, none⟩

/-- Configuration with explicit column ratios `[1, 2]`. -/
def cfgRatioTwo : TableConfig := ⟨false, 0, some [1, 2], none⟩

/-- Configuration that differs from `cfgPlain` only in the configured
margin fraction of the width arithmetic. -/
def cfgMargin : TableConfig := ⟨false, 1 / 2, none, none⟩

/-- Minimal table block with no header-end marker. -/
def tableBlockPlain : List Char := "\\begin\x7blongtable\x7dq\\end\x7blongtable\x7d".data

/-- Header region with three column-width declarations. -/
def header3 : List Char :=
  "\\begin\x7blongtable\x7d\n>\x7bf\x7dp\x7b\\real\x7b1\x7d\x7d\n>\x7bf\x7dp\x7b\\real\x7b1\x7d\x7d\n>\x7bg\x7dp\x7b\\real\x7b1\x7d\x7d\n".data

/-- Table block with three declared columns. -/
def table3 : List Char := header3 ++ "\\endhead\nbody\\end\x7blongtable\x7d".data

/-- Captures of the width regex over `header3`. -/
def ms3 : List (List Char × List Char) := [(['f'], ['1']), (['f'], ['1']), (['g'], ['1'])]

/-- Header region with two column-width declarations of width 1. -/
def header4 : List Char :=
  "\\begin\x7blongtable\x7d\n>\x7bf\x7dp\x7b\\real\x7b1\x7d\x7d\n>\x7bf\x7dp\x7b\\real\x7b1\x7d\x7d\n".data

/-- Table block with two declared columns of width 1. -/
def table4 : List Char := header4 ++ "\\endhead\nbody\\end\x7blongtable\x7d".data

/-- Captures of the width regex over `header4`. -/
def ms4 : List (List Char × List Char) := [(['f'], ['1']), (['f'], ['1'])]

/-- Text with a header-end marker but no width declaration before it. -/
def table2 : List Char := "xx\\endheadyy".data

/-- Text with no header-end marker at all. -/
def table5 : List Char := "no header marker here".data

/-- Table block with one declared column. -/
def table6 : List Char :=
  "\\begin\x7blongtable\x7d\n>\x7bf\x7dp\x7b\\real\x7b1\x7d\x7d\n\\endhead\nb\\end\x7blongtable\x7d".data

/-- Header region of `table6`. -/
def header6 : List Char :=
  "\\begin\x7blongtable\x7d\n>\x7bf\x7dp\x7b\\real\x7b1\x7d\x7d\n".data

/-- Captures of the width regex over `header6`. -/
def ms6 : List (List Char × List Char) := [(['f'], ['1'])]

/-- Table block containing an overlap-splice for the end-wrapper marker:
deleting the inner `\end{minipage}` occurrence joins the surrounding text
into a fresh occurrence. -/
def spliceBlock : List Char :=
  "\\begin\x7blongtable\x7d\\end\x7bmini\\end\x7bminipage\x7dpage\x7d\\end\x7blongtable\x7d".data

/-- Document with two table blocks and untouched text (including a blank
line) around and between them. -/
def doc1 : List Char :=
  "A\n".data ++ tableBlockPlain ++ "-mid-\n\n".data ++ tableBlockPlain ++ "Z".data

/-- Document with a blank line before its only table block. -/
def doc9 : List Char := "A\n\n".data ++ tableBlockPlain

/-! Generic lemmas about the string scanners. -/

theorem splitOnce_some_eq {pat : List Char} :
    ∀ {s pre suf : List Char}, splitOnce pat s = some (pre, suf) →
      s = pre ++ pat ++ suf := by
  intro s
  induction s with
  | nil =>
    intro pre suf h
    by_cases hp : pat.isEmpty
    · have hpat : pat = [] := List.isEmpty_iff.mp hp
      simp [splitOnce, hp] at h
      simp [hpat, h.1, h.2]
    · simp [splitOnce, hp] at h
  | cons c t ih =>
    intro pre suf h
    by_cases hp : pat.isPrefixOf (c :: t)
    · rw [splitOnce, if_pos hp] at h
      obtain ⟨u, hu⟩ := List.isPrefixOf_iff_prefix.mp hp
      simp only [Option.some.injEq, Prod.mk.injEq] at h
      obtain ⟨h1, h2⟩ := h
      subst h1
      rw [← h2, ← hu, List.drop_left]
      simp [← hu]
    · rw [splitOnce, if_neg hp] at h
      cases hrec : splitOnce pat t with
      | none => rw [hrec] at h; exact absurd h (by simp)
      | some pr =>
        obtain ⟨pre', suf'⟩ := pr
        rw [hrec] at h
        simp only [Option.some.injEq, Prod.mk.injEq] at h
        obtain ⟨h1, h2⟩ := h
        subst h1; subst h2
        have := ih hrec
        simp [this]

theorem splitOnce_isSome_iff {pat : List Char} :
    ∀ {s : List Char}, (splitOnce pat s).isSome ↔ Occurs pat s := by
  intro s
  induction s with
  | nil =>
    by_cases hp : pat.isEmpty
    · have hpat : pat = [] := List.isEmpty_iff.mp hp
      simp [splitOnce, hp, Occurs, hpat]
    · have hpat : pat ≠ [] := by
        intro h; rw [h] at hp; simp at hp
      simp only [splitOnce, hp]
      constructor
      · intro h; simp at h
      · rintro ⟨a, b, hab⟩
        exfalso
        have := congrArg List.length hab
        simp at this
        exact hpat (List.length_eq_zero.mp (by omega))
  | cons c t ih =>
    by_cases hp : pat.isPrefixOf (c :: t)
    · rw [splitOnce, if_pos hp]
      obtain ⟨u, hu⟩ := List.isPrefixOf_iff_prefix.mp hp
      simp only [Option.isSome_some, true_iff]
      exact ⟨[], u, by simp [← hu]⟩
    · rw [splitOnce, if_neg hp]
      have step : Occurs pat (c :: t) ↔ Occurs pat t := by
        constructor
        · rintro ⟨a, b, hab⟩
          cases a with
          | nil =>
            exfalso
            apply hp
            apply List.isPrefixOf_iff_prefix.mpr
            exact ⟨b, by simpa using hab.symm⟩
          | cons x a' =>
            injection hab with h1 h2
            exact ⟨a', b, h2⟩
        · rintro ⟨a, b, hab⟩
          exact ⟨c :: a, b, by simp [hab]⟩
      rw [step]
      cases hrec : splitOnce pat t with
      | none =>
        simp only [Option.isSome_none]
        rw [← ih, hrec]
        simp
      | some pr =>
        obtain ⟨pre', suf'⟩ := pr
        simp only [Option.isSome_some, true_iff]
        rw [← ih, hrec]
        simp

theorem splitOnce_none_iff {pat s : List Char} :
    splitOnce pat s = none ↔ ¬ Occurs pat s := by
  rw [← splitOnce_isSome_iff]
  cases splitOnce pat s <;> simp

theorem containsSub_false_iff {pat s : List Char} :
    containsSub pat s = false ↔ ¬ Occurs pat s := by
  rw [containsSub, ← splitOnce_isSome_iff]
  cases splitOnce pat s <;> simp

theorem splitOnce_pre_not_occurs {pat : List Char} (hpat : pat ≠ []) :
    ∀ {s pre suf : List Char}, splitOnce pat s = some (pre, suf) →
      ¬ Occurs pat pre := by
  intro s
  induction s with
  | nil =>
    intro pre suf h
    have hp : ¬ pat.isEmpty := by simpa [List.isEmpty_iff] using hpat
    simp [splitOnce, hp] at h
  | cons c t ih =>
    intro pre suf h
    by_cases hp : pat.isPrefixOf (c :: t)
    · rw [splitOnce, if_pos hp] at h
      simp only [Option.some.injEq, Prod.mk.injEq] at h
      obtain ⟨h1, h2⟩ := h
      subst h1
      rintro ⟨a, b, hab⟩
      have := congrArg List.length hab
      simp at this
      exact hpat (List.length_eq_zero.mp (by omega))
    · rw [splitOnce, if_neg hp] at h
      cases hrec : splitOnce pat t with
      | none => rw [hrec] at h; exact absurd h (by simp)
      | some pr =>
        obtain ⟨pre', suf'⟩ := pr
        rw [hrec] at h
        simp only [Option.some.injEq, Prod.mk.injEq] at h
        obtain ⟨h1, h2⟩ := h
        subst h1
        rintro ⟨a, b, hab⟩
        cases a with
        | nil =>
          apply hp
          apply List.isPrefixOf_iff_prefix.mpr
          have heq := splitOnce_some_eq hrec
          have hcp : c :: pre' = pat ++ b := by simpa using hab
          refine ⟨b ++ (pat ++ suf'), ?_⟩
          rw [heq]
          calc pat ++ (b ++ (pat ++ suf'))
              = (pat ++ b) ++ (pat ++ suf') := by simp
            _ = (c :: pre') ++ (pat ++ suf') := by rw [hcp]
            _ = c :: (pre' ++ pat ++ suf') := by simp
        | cons x a' =>
          injection hab with h1 h2
          exact ih hrec ⟨a', b, h2⟩

theorem occurs_append_left {pat u v : List Char} (h : Occurs pat u) :
    Occurs pat (u ++ v) := by
  obtain ⟨a, b, hab⟩ := h
  exact ⟨a, b ++ v, by simp [hab]⟩

theorem occurs_append_right {pat u v : List Char} (h : Occurs pat v) :
    Occurs pat (u ++ v) := by
  obtain ⟨a, b, hab⟩ := h
  exact ⟨u ++ a, b, by simp [hab]⟩

theorem occurs_append_decomp {q u v : List Char} (h : Occurs q (u ++ v)) :
    Occurs q u ∨ Occurs q v ∨
      ∃ q1 q2, q = q1 ++ q2 ∧ q1 ≠ [] ∧ q2 ≠ [] ∧
        (∃ a, u = a ++ q1) ∧ (∃ b, v = q2 ++ b) := by
  obtain ⟨a, b, hab⟩ := h
  rw [List.append_assoc] at hab
  rcases List.append_eq_append_iff.mp hab with ⟨w, hw1, hw2⟩ | ⟨w, hw1, hw2⟩
  · -- a = u ++ w and v = w ++ (q ++ b): the occurrence is inside v
    right; left
    exact ⟨w, b, by simp [hw2]⟩
  · -- u = a ++ w and q ++ b = w ++ v
    rcases List.append_eq_append_iff.mp hw2 with ⟨x, hx1, hx2⟩ | ⟨x, hx1, hx2⟩
    · -- w = q ++ x: occurrence inside u
      left
      exact ⟨a, x, by rw [hw1, hx1, List.append_assoc]⟩
    · -- q = w ++ x and v = x ++ b
      rcases w with _ | ⟨wc, wt⟩
      · right; left
        refine ⟨[], b, ?_⟩
        simp only [List.nil_append] at hx1
        simp [hx2, hx1]
      · rcases x with _ | ⟨xc, xt⟩
        · left
          refine ⟨a, [], ?_⟩
          simp only [List.append_nil] at hx1
          simp [hw1, hx1]
        · right; right
          exact ⟨wc :: wt, xc :: xt, hx1, by simp, by simp, ⟨a, hw1⟩, ⟨b, hx2⟩⟩

theorem dropWhile_ne_nl (s : List Char) :
    s.dropWhile (fun c => c != '\n') = [] ∨
      (s.dropWhile (fun c => c != '\n')).head? = some '\n' := by
  induction s with
  | nil => left; rfl
  | cons c t ih =>
    by_cases hc : c = '\n'
    · right
      rw [List.dropWhile_cons_of_neg (by simp [hc])]
      simp [hc]
    · rw [List.dropWhile_cons_of_pos (by simp [hc])]
      exact ih

theorem replAllWithF_of_not_occurs {pat repl s : List Char}
    (h : ¬ Occurs pat s) : ∀ f, replAllWithF pat repl f s = s := by
  intro f
  cases f with
  | zero => rfl
  | succ f =>
    rw [replAllWithF, splitOnce_none_iff.mpr h]

theorem subLineRF_head {pat : List Char} (hpat : pat ≠ [])
    (hph : pat.head? ≠ some '\n') (f : Nat) (s : List Char)
    (hs : s = [] ∨ s.head? = some '\n') :
    subLineRF pat f s = [] ∨ (subLineRF pat f s).head? = some '\n' := by
  cases f with
  | zero => exact hs
  | succ f =>
    cases hsp : splitOnce pat s with
    | none => rw [subLineRF, hsp]; exact hs
    | some pr =>
      obtain ⟨pre, suf⟩ := pr
      rw [subLineRF, hsp]
      have heq := splitOnce_some_eq hsp
      cases hs with
      | inl hnil =>
        exfalso
        rw [hnil] at heq
        have := congrArg List.length heq
        simp at this
        exact hpat (List.length_eq_zero.mp (by omega))
      | inr hhd =>
        cases pre with
        | nil =>
          exfalso
          apply hph
          rw [heq] at hhd
          cases pat with
          | nil => exact absurd rfl hpat
          | cons pc pt => simpa using hhd
        | cons p pre' =>
          right
          rw [heq] at hhd
          simpa using hhd

theorem subLineRF_not_occurs {pat : List Char} (hpat : pat ≠ [])
    (hnl : '\n' ∉ pat) :
    ∀ (f : Nat) (s : List Char), s.length < f →
      ¬ Occurs pat (subLineRF pat f s) := by
  intro f
  induction f with
  | zero => intro s hlt; omega
  | succ f ih =>
    intro s hlt
    cases hsp : splitOnce pat s with
    | none =>
      rw [subLineRF, hsp]
      exact splitOnce_none_iff.mp hsp
    | some pr =>
      obtain ⟨pre, suf⟩ := pr
      rw [subLineRF, hsp]
      have heq := splitOnce_some_eq hsp
      have hlens := congrArg List.length heq
      have hpatlen : 0 < pat.length := by
        cases pat with
        | nil => exact absurd rfl hpat
        | cons pc pt => simp
      have hdlen : (suf.dropWhile (fun c => c != '\n')).length ≤ suf.length := by
        have hsplit := List.takeWhile_append_dropWhile (fun c => c != '\n') suf
        have hl := congrArg List.length hsplit
        simp only [List.length_append] at hl
        omega
      simp only [List.length_append] at hlens
      intro hocc
      rcases occurs_append_decomp hocc with hc1 | hc2 | hc3
      · exact splitOnce_pre_not_occurs hpat hsp hc1
      · exact ih (suf.dropWhile (fun c => c != '\n')) (by omega) hc2
      · obtain ⟨q1, q2, hq, hq1, hq2, ⟨a, ha⟩, ⟨b, hb⟩⟩ := hc3
        have hph : pat.head? ≠ some '\n' := by
          cases pat with
          | nil => exact absurd rfl hpat
          | cons pc pt =>
            intro hpc
            have hpc' : pc = '\n' := Option.some.inj hpc
            exact hnl (by simp [hpc'])
        have hrec := subLineRF_head hpat hph f
          (suf.dropWhile (fun c => c != '\n')) (dropWhile_ne_nl suf)
        cases hrec with
        | inl hnil' =>
          rw [hnil'] at hb
          exact hq2 (List.append_eq_nil.mp hb.symm).1
        | inr hhd =>
          rw [hb] at hhd
          cases hq2nil : q2 with
          | nil => exact hq2 hq2nil
          | cons qc qt =>
            rw [hq2nil] at hhd
            simp at hhd
            apply hnl
            rw [hq, hq2nil, hhd]
            simp

theorem subLineRF_occurs_mono {pat q : List Char} (hpat : pat ≠ [])
    (hph : pat.head? ≠ some '\n') (hq : '\n' ∉ q) :
    ∀ (f : Nat) (s : List Char), Occurs q (subLineRF pat f s) → Occurs q s := by
  intro f
  induction f with
  | zero => intro s h; exact h
  | succ f ih =>
    intro s h
    cases hsp : splitOnce pat s with
    | none => rw [subLineRF, hsp] at h; exact h
    | some pr =>
      obtain ⟨pre, suf⟩ := pr
      rw [subLineRF, hsp] at h
      have heq := splitOnce_some_eq hsp
      have hsplit : suf = suf.takeWhile (fun c => c != '\n') ++
          suf.dropWhile (fun c => c != '\n') :=
        (List.takeWhile_append_dropWhile _ _).symm
      rcases occurs_append_decomp h with hc1 | hc2 | hc3
      · rw [heq]
        exact occurs_append_left (occurs_append_left hc1)
      · have hsuf : Occurs q suf := by
          rw [hsplit]
          exact occurs_append_right (ih _ hc2)
        rw [heq]
        exact occurs_append_right hsuf
      · obtain ⟨q1, q2, hqeq, hq1, hq2, ⟨a, ha⟩, ⟨b, hb⟩⟩ := hc3
        exfalso
        have hrec := subLineRF_head hpat hph f
          (suf.dropWhile (fun c => c != '\n')) (dropWhile_ne_nl suf)
        cases hrec with
        | inl hnil' =>
          rw [hnil'] at hb
          exact hq2 (List.append_eq_nil.mp hb.symm).1
        | inr hhd =>
          rw [hb] at hhd
          cases hq2nil : q2 with
          | nil => exact hq2 hq2nil
          | cons qc qt =>
            rw [hq2nil] at hhd
            simp at hhd
            apply hq
            rw [hqeq, hq2nil, hhd]
            simp

theorem linesAux_no_nl (l : List Char) (h : ∀ c ∈ l, c ≠ '\n') :
    ∀ acc, linesAux acc l = [] := by
  induction l with
  | nil => intro acc; rfl
  | cons c t ih =>
    intro acc
    have hc : c ≠ '\n' := h c (by simp)
    rw [linesAux, if_neg hc]
    exact ih (fun x hx => h x (by simp [hx])) _

theorem linesAux_append_nl (r l : List Char) (h : ∀ c ∈ l, c ≠ '\n') :
    ∀ acc, linesAux acc (l ++ '\n' :: r) = (acc ++ l) :: linesAux [] r := by
  induction l with
  | nil => intro acc; simp [linesAux]
  | cons c t ih =>
    intro acc
    have hc : c ≠ '\n' := h c (by simp)
    simp only [List.cons_append]
    rw [linesAux, if_neg hc, ih (fun x hx => h x (by simp [hx])) (acc ++ [c])]
    simp

theorem lastNLlen_none_iff (l : List Char) : lastNLlen l = none ↔ '\n' ∉ l := by
  induction l with
  | nil => simp [lastNLlen]
  | cons c t ih =>
    rw [lastNLlen]
    cases h : lastNLlen t with
    | some n =>
      have hmem : '\n' ∈ t := by
        by_contra hn
        rw [ih.mpr hn] at h
        exact Option.noConfusion h
      simp [hmem]
    | none =>
      have hnt : '\n' ∉ t := ih.mp h
      by_cases hc : c = '\n'
      · simp [hc]
      · simp [hc, hnt]
        exact fun hx => hc hx.symm

theorem lastNLlen_pos {l : List Char} {n : Nat} (h : lastNLlen l = some n) :
    0 < n := by
  induction l generalizing n with
  | nil => simp [lastNLlen] at h
  | cons c t ih =>
    rw [lastNLlen] at h
    cases ht : lastNLlen t with
    | some m =>
      rw [ht] at h
      injection h with h
      omega
    | none =>
      rw [ht] at h
      by_cases hc : c = '\n'
      · rw [if_pos hc] at h
        injection h with h
        omega
      · rw [if_neg hc] at h
        exact Option.noConfusion h

theorem takeWhile_append_all {p : Char → Bool} {l : List Char}
    (h : ∀ c ∈ l, p c = true) (x : List Char) :
    (l ++ x).takeWhile p = l ++ x.takeWhile p := by
  induction l with
  | nil => simp
  | cons c t ih =>
    have hc : p c = true := h c (by simp)
    simp only [List.cons_append, List.takeWhile_cons_of_pos hc]
    rw [ih (fun x hx => h x (by simp [hx]))]

theorem delAuxF_no_blank :
    ∀ (f : Nat) (s : List Char), s.length < f →
      ∀ l ∈ linesNT (delAuxF f s), l.all pyIsSpace = false := by
  intro f
  induction f with
  | zero => intro s h; omega
  | succ f ih =>
    intro s hlt l hl
    rw [delAuxF] at hl
    cases hnl : lastNLlen (s.takeWhile pyIsSpace) with
    | some n =>
      rw [hnl] at hl
      have hn := lastNLlen_pos hnl
      have hslen : 1 ≤ s.length := by
        cases s with
        | nil =>
          rw [show List.takeWhile pyIsSpace [] = [] from rfl] at hnl
          simp [lastNLlen] at hnl
        | cons a t => simp
      exact ih (s.drop n) (by rw [List.length_drop]; omega) l hl
    | none =>
      rw [hnl] at hl
      cases hdw : s.dropWhile (fun c => c != '\n') with
      | nil =>
        rw [hdw] at hl
        have hs : s = s.takeWhile (fun c => c != '\n') := by
          conv_lhs => rw [← List.takeWhile_append_dropWhile (fun c => c != '\n') s]
          rw [hdw]
          simp
        have hnonl : ∀ c ∈ s, c ≠ '\n' := by
          intro c hc
          rw [hs] at hc
          simpa using List.mem_takeWhile_imp hc
        rw [linesNT, linesAux_no_nl s hnonl] at hl
        exact absurd hl (by simp)
      | cons c r =>
        rw [hdw] at hl
        have hline : ∀ x ∈ s.takeWhile (fun c => c != '\n'), x ≠ '\n' := by
          intro x hx
          simpa using List.mem_takeWhile_imp hx
        rw [linesNT, linesAux_append_nl _ _ hline []] at hl
        simp only [List.nil_append, List.mem_cons] at hl
        cases hl with
        | inl hleq =>
          subst hleq
          by_contra hall
          simp only [Bool.not_eq_false] at hall
          have hceq : c = '\n' := by
            have hd := dropWhile_ne_nl s
            rw [hdw] at hd
            cases hd with
            | inl h0 => exact absurd h0 (by simp)
            | inr hh => simpa using hh
          have hseq : s = s.takeWhile (fun c => c != '\n') ++ c :: r := by
            conv_lhs => rw [← List.takeWhile_append_dropWhile (fun c => c != '\n') s]
            rw [hdw]
          have hallmem : ∀ x ∈ s.takeWhile (fun c => c != '\n'), pyIsSpace x = true :=
            fun x hx => List.all_eq_true.mp hall x hx
          have hrun : '\n' ∈ s.takeWhile pyIsSpace := by
            rw [hseq, hceq, takeWhile_append_all hallmem]
            refine List.mem_append_right _ ?_
            rw [List.takeWhile_cons_of_pos (show pyIsSpace '\n' = true from rfl)]
            simp
          exact (lastNLlen_none_iff _).mp hnl hrun
        | inr hrest =>
          have hds := congrArg List.length
            (List.takeWhile_append_dropWhile (fun c => c != '\n') s)
          rw [hdw] at hds
          simp only [List.length_append, List.length_cons] at hds
          exact ih r (by omega) l hrest

theorem findTable_eq {s pre block rest : List Char}
    (h : findTable s = some (pre, block, rest)) :
    s = pre ++ block ++ rest ∧ rest.length < s.length ∧
      ∃ mid, block = beginLongtable ++ mid ++ endLongtable := by
  rw [findTable] at h
  cases hsp : splitOnce beginLongtable s with
  | none => rw [hsp] at h; exact absurd h (by simp)
  | some pr =>
    obtain ⟨pre1, suf1⟩ := pr
    rw [hsp] at h
    cases hsp2 : splitOnce endLongtable suf1 with
    | none => simp only [hsp2] at h; exact absurd h (by simp)
    | some pr2 =>
      obtain ⟨mid1, rest1⟩ := pr2
      simp only [hsp2, Option.some.injEq, Prod.mk.injEq] at h
      obtain ⟨h1, h2, h3⟩ := h
      subst h1; subst h2; subst h3
      have heq1 := splitOnce_some_eq hsp
      have heq2 := splitOnce_some_eq hsp2
      constructor
      · rw [heq1, heq2]
        simp
      constructor
      · have hl1 := congrArg List.length heq1
        have hl2 := congrArg List.length heq2
        simp only [List.length_append] at hl1 hl2
        have hb : 0 < beginLongtable.length := by decide
        have he : 0 < endLongtable.length := by decide
        omega
      · exact ⟨mid1, rfl⟩

theorem tableDecompF_glue :
    ∀ (f : Nat) (s : List Char),
      glue (tableDecompF f s).1 (tableDecompF f s).2 = s := by
  intro f
  induction f with
  | zero => intro s; rfl
  | succ f ih =>
    intro s
    cases hft : findTable s with
    | none => rw [tableDecompF, hft]; rfl
    | some pr =>
      obtain ⟨pre, block, rest⟩ := pr
      rw [tableDecompF, hft]
      have heq := (findTable_eq hft).1
      simp only [glue, List.foldr_cons]
      rw [show (List.foldr (fun p acc => p.1 ++ p.2 ++ acc)
         (tableDecompF f rest).2 (tableDecompF f rest).1) =
         glue (tableDecompF f rest).1 (tableDecompF f rest).2 from rfl]
      rw [ih rest, heq]

theorem tableDecompF_blocks :
    ∀ (f : Nat) (s : List Char), ∀ p ∈ (tableDecompF f s).1,
      ∃ mid, p.2 = beginLongtable ++ mid ++ endLongtable := by
  intro f
  induction f with
  | zero => intro s p hp; exact absurd hp (by simp [tableDecompF])
  | succ f ih =>
    intro s p hp
    cases hft : findTable s with
    | none =>
      rw [tableDecompF, hft] at hp
      exact absurd hp (by simp)
    | some pr =>
      obtain ⟨pre, block, rest⟩ := pr
      rw [tableDecompF, hft] at hp
      simp only [List.mem_cons] at hp
      cases hp with
      | inl hpe =>
        subst hpe
        exact (findTable_eq hft).2.2
      | inr hpm => exact ih rest p hpm

theorem subTablesEF_decomp (g : List Char → Except String (List Char)) :
    ∀ (f : Nat) (s r : List Char), subTablesEF g f s = Except.ok r →
      ∃ rw1, List.Forall₂ (fun (p : List Char × List Char) b1 => g p.2 = Except.ok b1)
          (tableDecompF f s).1 rw1 ∧
        r = glue (List.zipWith (fun (p : List Char × List Char) b1 => (p.1, b1))
          (tableDecompF f s).1 rw1) (tableDecompF f s).2 := by
  intro f
  induction f with
  | zero =>
    intro s r h
    simp only [subTablesEF, Except.ok.injEq] at h
    subst h
    exact ⟨[], List.Forall₂.nil, rfl⟩
  | succ f ih =>
    intro s r h
    cases hft : findTable s with
    | none =>
      rw [subTablesEF, hft] at h
      simp only [Except.ok.injEq] at h
      subst h
      rw [tableDecompF, hft]
      exact ⟨[], List.Forall₂.nil, rfl⟩
    | some pr =>
      obtain ⟨pre, block, rest⟩ := pr
      rw [subTablesEF, hft] at h
      cases hgb : g block with
      | error e => simp only [hgb] at h; exact absurd h (by simp)
      | ok b1 =>
        simp only [hgb] at h
        cases hrec : subTablesEF g f rest with
        | error e => simp only [hrec] at h; exact absurd h (by simp)
        | ok r1 =>
          simp only [hrec, Except.ok.injEq] at h
          subst h
          obtain ⟨rw1, hfa, hr1⟩ := ih rest r1 hrec
          refine ⟨b1 :: rw1, ?_, ?_⟩
          · rw [tableDecompF, hft]
            exact List.Forall₂.cons hgb hfa
          · rw [tableDecompF, hft]
            simp only [List.zipWith_cons_cons, glue, List.foldr_cons]
            rw [show (List.foldr (fun p acc => p.1 ++ p.2 ++ acc)
                (tableDecompF f rest).2
                (List.zipWith (fun (p : List Char × List Char) b1 => (p.1, b1))
                  (tableDecompF f rest).1 rw1)) =
                glue (List.zipWith (fun (p : List Char × List Char) b1 => (p.1, b1))
                  (tableDecompF f rest).1 rw1) (tableDecompF f rest).2 from rfl]
            rw [← hr1]

theorem sum_map_div (l : List Rat) (c : Rat) :
    (l.map (fun x => x / c)).sum = l.sum / c := by
  induction l with
  | nil => simp
  | cons a t ih => simp [ih, add_div]

theorem sum_map_mul_const (l : List Rat) (c : Rat) :
    (l.map (fun x => x * c)).sum = l.sum * c := by
  induction l with
  | nil => simp
  | cons a t ih => simp [ih, add_mul]

theorem getD_map_lt (l : List Rat) (g : Rat → Rat) {i : Nat}
    (h : i < l.length) (d : Rat) :
    (l.map g).getD i d = g (l.getD i d) := by
  induction l generalizing i with
  | nil => simp at h
  | cons a t ih =>
    cases i with
    | zero => rfl
    | succ i =>
      simp only [List.map_cons, List.getD_cons_succ]
      exact ih (by simpa using h)

theorem headerPart_some {table part : List Char}
    (h : headerPart table = some part) :
    ∃ suf, splitOnce endheadTag table = some (part, suf) := by
  rw [headerPart] at h
  cases hsp : splitOnce endheadTag table with
  | none => rw [hsp] at h; exact absurd h (by simp)
  | some pr =>
    obtain ⟨p1, s1⟩ := pr
    rw [hsp] at h
    simp only [Option.map_some', Option.some.injEq] at h
    exact ⟨s1, by rw [← h]⟩

/-- Claim C2: when the header-end marker is present but the header region
contains no column-width declaration matching the width pattern,
`getColumnSizes` raises an error (the `ValueError` of line 120) and never
returns an empty successful result. -/
theorem claim2_zero_columns_error (table part : List Char) (b : Bool)
    (m : Rat) (cr : Option (List Rat))
    (hpart : headerPart table = some part)
    (hms : columnMatches part = []) :
    getColumnSizes table b m cr = Except.error "ValueError: Regex failed" := by
  obtain ⟨suf, hsp⟩ := headerPart_some hpart
  rw [getColumnSizes]
  simp [hsp, hms]

/-- Claim C3: when the configured column ratios are as many as the
extracted column widths (and their sum is nonzero, as Python float
division requires), `getColumnSizes` replaces each width by
`ratio / sum(ratios)` and then rescales all widths by
`(1 - margin) / sum(currentWidths)`. -/
theorem claim3_ratio_override (table part : List Char)
    (ms : List (List Char × List Char)) (rs : List Rat) (so : Bool) (m : Rat)
    (hpart : headerPart table = some part)
    (hms : columnMatches part = ms) (hne : ms ≠ [])
    (hlen : rs.length = ms.length) (hsum : rs.sum ≠ 0) :
    getColumnSizes table so m (some rs) =
      Except.ok (scaledWidths m (rs.map (fun c => c / rs.sum)),
        ms.map (fun p => p.1)) := by
  obtain ⟨suf, hsp⟩ := headerPart_some hpart
  have hrs : rs ≠ [] := by
    intro h0
    rw [h0] at hlen
    exact hne (List.length_eq_zero.mp hlen.symm)
  have hrsE : rs.isEmpty = false := by
    cases rs with
    | nil => exact absurd rfl hrs
    | cons a t => rfl
  have hmslen : ms.length ≠ 0 := fun h0 => hne (List.length_eq_zero.mp h0)
  rw [getColumnSizes]
  simp only [hsp, hms, List.length_map]
  rw [if_neg hmslen]
  rw [if_neg (by simp [hrsE])]
  rw [if_pos hlen]
  rw [if_neg hsum]
  rw [scaleStep]
  rw [if_pos (by simp : (so || true) = true)]
  rw [if_neg (by rw [sum_map_div, div_self hsum]; norm_num)]

/-- Claim C4: with the scale-to-full flag set and no column ratios, every
extracted width is multiplied by `(1 - margin) / sum(widths)`, the
results sum to `1 - margin`, and pairwise width ratios are preserved. -/
theorem claim4_scale_to_full (table part : List Char)
    (ms : List (List Char × List Char)) (ws : List Rat) (m : Rat)
    (hpart : headerPart table = some part)
    (hms : columnMatches part = ms)
    (hws : ws = ms.map (fun p => parseFloat p.2))
    (hne : ms ≠ []) (hpos : 0 < ws.sum) :
    getColumnSizes table true m none =
      Except.ok (scaledWidths m ws, ms.map (fun p => p.1)) ∧
    (scaledWidths m ws).sum = 1 - m ∧
    ∀ i j, i < ws.length → j < ws.length →
      (scaledWidths m ws).getD i 0 * ws.getD j 0 =
        (scaledWidths m ws).getD j 0 * ws.getD i 0 := by
  obtain ⟨suf, hsp⟩ := headerPart_some hpart
  have hmslen : ms.length ≠ 0 := fun h0 => hne (List.length_eq_zero.mp h0)
  have hsum : ws.sum ≠ 0 := ne_of_gt hpos
  refine ⟨?_, ?_, ?_⟩
  · rw [getColumnSizes]
    simp only [hsp, hms, List.length_map]
    rw [if_neg hmslen]
    rw [scaleStep]
    rw [if_pos (by simp : (true || false) = true)]
    rw [if_neg (by rw [← hws]; exact hsum)]
    rw [hws]
  · rw [scaledWidths, sum_map_mul_const, mul_comm]
    exact div_mul_cancel₀ _ hsum
  · intro i j hi hj
    rw [scaledWidths, getD_map_lt _ _ hi, getD_map_lt _ _ hj]
    ring

/-- Claim C5 (amended): when the header-end marker is absent,
`getColumnSizes` returns empty width and format sequences without failing
(line 107 returns before the ratio override is even considered), whatever
column ratios are configured. -/
theorem claim5_missing_endhead (table : List Char) (b : Bool) (m : Rat)
    (cr : Option (List Rat)) (h : headerPart table = none) :
    getColumnSizes table b m cr = Except.ok ([], []) := by
  have hsp : splitOnce endheadTag table = none := by
    rw [headerPart] at h
    cases hsp : splitOnce endheadTag table with
    | none => rfl
    | some pr => rw [hsp] at h; exact absurd h (by simp)
  rw [getColumnSizes]
  simp [hsp]

/-- Claim C6 (amended): a configured NON-EMPTY column-ratio list whose
length differs from the number of extracted widths makes
`getColumnSizes` fail with the assertion error of line 124 (an empty
configured list is falsy in Python and is silently ignored instead). -/
theorem claim6_ratio_count_mismatch (table part : List Char)
    (ms : List (List Char × List Char)) (rs : List Rat) (b : Bool) (m : Rat)
    (hpart : headerPart table = some part) (hms : columnMatches part = ms)
    (hne : ms ≠ []) (hrs : rs ≠ []) (hlen : rs.length ≠ ms.length) :
    getColumnSizes table b m (some rs) = Except.error "AssertionError" := by
  obtain ⟨suf, hsp⟩ := headerPart_some hpart
  have hmslen : ms.length ≠ 0 := fun h0 => hne (List.length_eq_zero.mp h0)
  have hrsE : rs.isEmpty = false := by
    cases rs with
    | nil => exact absurd rfl hrs
    | cons a t => rfl
  rw [getColumnSizes]
  simp only [hsp, hms, List.length_map]
  rw [if_neg hmslen]
  rw [if_neg (by simp [hrsE])]
  rw [if_neg hlen]

/-- Claim C1: for every input text, the block rewriter leaves every
character outside the matched table-block spans byte-identical (the
`before` parts and the trailing text appear unchanged in the output), the
spans are the left-to-right non-overlapping marker-delimited blocks, and
each block is rewritten by the per-block function applied to that block
alone. -/
theorem claim1_frame_preservation (config : TableConfig) (s r : List Char)
    (h : postProcessLatexTables config s = Except.ok r) :
    s = glue (tableDecomp s).1 (tableDecomp s).2 ∧
    (∀ p ∈ (tableDecomp s).1,
      ∃ mid, p.2 = beginLongtable ++ mid ++ endLongtable) ∧
    ∃ rw1, List.Forall₂ (fun (p : List Char × List Char) b1 =>
        postProcessLatexTable config p.2 = Except.ok b1) (tableDecomp s).1 rw1 ∧
      r = glue (List.zipWith (fun (p : List Char × List Char) b1 => (p.1, b1))
        (tableDecomp s).1 rw1) (tableDecomp s).2 := by
  refine ⟨(tableDecompF_glue _ _).symm, tableDecompF_blocks _ _, ?_⟩
  exact subTablesEF_decomp (postProcessLatexTable config) (s.length + 1) s r h

/-- Claim C7: the rewritten table text is independent of the recomputed
widths and formats: `setColumnFormat` returns the same output for any two
pairs of width/format sequences, and two successful block rewrites under
configurations that agree on the row spacing produce identical text. -/
theorem claim7_output_independent_of_widths :
    (∀ (t : List Char) (w1 w2 : List Rat) (f1 f2 : List (List Char)),
      setColumnFormat t w1 f1 = setColumnFormat t w2 f2) ∧
    (∀ c1 c2 : TableConfig, ∀ t r1 r2 : List Char,
      c1.rowSpacing = c2.rowSpacing →
      postProcessLatexTable c1 t = Except.ok r1 →
      postProcessLatexTable c2 t = Except.ok r2 → r1 = r2) := by
  constructor
  · intro t w1 w2 f1 f2
    rfl
  · intro c1 c2 t r1 r2 hsp h1 h2
    rw [postProcessLatexTable] at h1 h2
    cases hg1 : getColumnSizes t c1.scaleColumnsToFull
        c1.scaleColumnsToFullMargin c1.columnRatios with
    | error e => simp only [hg1] at h1; exact absurd h1 (by simp)
    | ok pr1 =>
      obtain ⟨wa, fa⟩ := pr1
      simp only [hg1, Except.ok.injEq] at h1
      cases hg2 : getColumnSizes t c2.scaleColumnsToFull
          c2.scaleColumnsToFullMargin c2.columnRatios with
      | error e => simp only [hg2] at h2; exact absurd h2 (by simp)
      | ok pr2 =>
        obtain ⟨wb, fb⟩ := pr2
        simp only [hg2, Except.ok.injEq] at h2
        rw [← h1, ← h2, hsp]
        rfl

/-- Helper: every newline-terminated line of `deleteEmptyLines s` has at
least one non-whitespace character. -/
theorem deleteEmptyLines_no_blank (s : List Char) :
    ∀ l ∈ linesNT (deleteEmptyLines s), l.all pyIsSpace = false :=
  delAuxF_no_blank (s.length + 1) s (by omega)

/-- Claim C9 (amended): every successfully rewritten table block contains
no empty or whitespace-only newline-terminated line (text outside table
blocks is untouched by the rewriter and may keep its blank lines). -/
theorem claim9_no_blank_lines_in_block (config : TableConfig)
    (table r : List Char)
    (h : postProcessLatexTable config table = Except.ok r) :
    (linesNT r).all (fun l => !l.all pyIsSpace) = true := by
  rw [postProcessLatexTable] at h
  cases hg : getColumnSizes table config.scaleColumnsToFull
      config.scaleColumnsToFullMargin config.columnRatios with
  | error e => simp only [hg] at h; exact absurd h (by simp)
  | ok pr =>
    obtain ⟨wa, fa⟩ := pr
    simp only [hg, Except.ok.injEq] at h
    subst h
    rw [List.all_eq_true]
    intro l hl
    simp [deleteEmptyLines_no_blank _ l hl]

/-- Claim C8 (amended): after `setColumnFormat` no begin-wrapper marker
remains at all; end-wrapper markers are deleted in one left-to-right
non-overlapping pass, so when the input block is free of the end-wrapper
marker the output is too (a deletion can, however, splice the surrounding
text into a fresh end-wrapper occurrence, which then survives). -/
theorem claim8_wrapper_markers (t : List Char) (w : List Rat)
    (fm : List (List Char)) :
    containsSub beginMinipage (setColumnFormat t w fm) = false ∧
    (containsSub endMinipage t = false →
      containsSub endMinipage (setColumnFormat t w fm) = false) := by
  constructor
  · apply containsSub_false_iff.mpr
    exact subLineRF_not_occurs (by decide) (by decide)
      ((replAll endMinipage t).length + 1) (replAll endMinipage t) (by omega)
  · intro h0
    apply containsSub_false_iff.mpr
    have hocc : ¬ Occurs endMinipage t := containsSub_false_iff.mp h0
    have hrepl : replAll endMinipage t = t := replAllWithF_of_not_occurs hocc _
    intro hc
    have hc2 : Occurs endMinipage (subLineRF beginMinipage
        ((replAll endMinipage t).length + 1) (replAll endMinipage t)) := hc
    have hocc2 := subLineRF_occurs_mono (by decide) (by decide) (by decide)
      ((replAll endMinipage t).length + 1) (replAll endMinipage t) hc2
    rw [hrepl] at hocc2
    exact hocc hocc2

/-- Claim C10: the CLI entry point always invokes `run` with
`parallel=False`, so the process-pool branch is never taken from the
entry point, whatever `--parallel` was parsed to. -/
theorem claim10_parallel_flag_inert (α : Type) (args : CliArgs)
    (configs : List α) :
    mainEntry args configs = ExecPlan.sequential configs := rfl

/-- Witness for claim C1 at a concrete document with two table blocks and
untouched surrounding text. -/
theorem claim1_witness :
    postProcessLatexTables cfgPlain doc1 = Except.ok doc1 ∧
    (doc1 = glue (tableDecomp doc1).1 (tableDecomp doc1).2 ∧
     (∀ p ∈ (tableDecomp doc1).1,
       ∃ mid, p.2 = beginLongtable ++ mid ++ endLongtable) ∧
     ∃ rw1, List.Forall₂ (fun (p : List Char × List Char) b1 =>
         postProcessLatexTable cfgPlain p.2 = Except.ok b1)
         (tableDecomp doc1).1 rw1 ∧
       doc1 = glue (List.zipWith (fun (p : List Char × List Char) b1 => (p.1, b1))
         (tableDecomp doc1).1 rw1) (tableDecomp doc1).2) := by
  have h : postProcessLatexTables cfgPlain doc1 = Except.ok doc1 := by decide
  exact ⟨h, claim1_frame_preservation cfgPlain doc1 doc1 h⟩

/-- Witness for claim C2: a header region with the marker but no width
declaration makes the job fail. -/
theorem claim2_witness :
    headerPart table2 = some "xx".data ∧ columnMatches "xx".data = [] ∧
    getColumnSizes table2 false 0 none =
      Except.error "ValueError: Regex failed" := by
  refine ⟨by decide, by decide, ?_⟩
  exact claim2_zero_columns_error table2 "xx".data false 0 none
    (by decide) (by decide)

/-- Witness for claim C3: ratios `[3, 3, 2]` against three declared
columns with margin 0 produce the widths `[0.375, 0.375, 0.25]`. -/
theorem claim3_witness :
    getColumnSizes table3 false 0 (some [3, 3, 2]) =
      Except.ok ([3 / 8, 3 / 8, 1 / 4], [['f'], ['f'], ['g']]) := by
  rw [claim3_ratio_override table3 header3 ms3 [3, 3, 2] false 0
    (by decide) (by decide) (by decide) (by decide)
    (by norm_num [List.sum_cons, List.sum_nil])]
  norm_num [scaledWidths, ms3, List.sum_cons, List.sum_nil]

/-- Witness for claim C4: declared widths `[1, 1]` with margin 1/10
become `[0.45, 0.45]`. -/
theorem claim4_witness :
    getColumnSizes table4 true (1 / 10) none =
      Except.ok ([9 / 20, 9 / 20], [['f'], ['f']]) := by
  rw [(claim4_scale_to_full table4 header4 ms4 [1, 1] (1 / 10)
    (by decide) (by decide) (by decide) (by decide)
    (by norm_num [List.sum_cons, List.sum_nil])).1]
  norm_num [scaledWidths, ms4, List.sum_cons, List.sum_nil]

/-- Witness for claim C5 (amended): without the header-end marker the
extraction returns the empty result even with ratios configured. -/
theorem claim5_witness :
    headerPart table5 = none ∧
    getColumnSizes table5 true 0 (some [1, 2]) = Except.ok ([], []) :=
  ⟨by decide, claim5_missing_endhead table5 true 0 (some [1, 2]) (by decide)⟩

/-- Counterexample for claim C5 as stated: with the header-end marker
absent and explicit column ratios configured, processing the block
succeeds (the block is returned unchanged) instead of failing at that
point. -/
theorem claim5_counterexample :
    cfgRatioTwo.columnRatios = some [1, 2] ∧
    postProcessLatexTable cfgRatioTwo tableBlockPlain =
      Except.ok tableBlockPlain :=
  ⟨rfl, by decide⟩

/-- Witness for claim C6 (amended): ratios of length 2 against three
declared columns fail with the assertion error. -/
theorem claim6_witness :
    getColumnSizes table3 false 0 (some [1, 2]) =
      Except.error "AssertionError" :=
  claim6_ratio_count_mismatch table3 header3 ms3 [1, 2] false 0
    (by decide) (by decide) (by decide) (by decide) (by decide)

/-- Counterexample for claim C6 as stated: the empty configured ratio
list has length 0, different from the single extracted width, yet
`getColumnSizes` succeeds because an empty list is falsy in Python. -/
theorem claim6_counterexample :
    getColumnSizes table6 false 0 (some []) = Except.ok ([1], [['f']]) := by
  decide

/-- Witness for claim C7: the same block rewritten under two
configurations with different width arithmetic yields the same text. -/
theorem claim7_witness :
    postProcessLatexTable cfgMargin table6 = Except.ok table6 := by
  have h1 : postProcessLatexTable cfgPlain table6 = Except.ok table6 := by
    decide
  have h2 : postProcessLatexTable cfgMargin table6 =
      Except.ok (deleteEmptyLines table6) := by decide
  have heq := claim7_output_independent_of_widths.2 cfgPlain cfgMargin
    table6 table6 (deleteEmptyLines table6) rfl h1 h2
  rw [h2, ← heq]

/-- Witness for claim C8 (amended) at a block without wrapper markers. -/
theorem claim8_witness :
    containsSub endMinipage tableBlockPlain = false ∧
    containsSub beginMinipage (setColumnFormat tableBlockPlain [] []) = false ∧
    containsSub endMinipage (setColumnFormat tableBlockPlain [] []) = false := by
  refine ⟨by decide, (claim8_wrapper_markers tableBlockPlain [] []).1, ?_⟩
  exact (claim8_wrapper_markers tableBlockPlain [] []).2 (by decide)

/-- Counterexample for claim C8 as stated: deleting the inner end-wrapper
occurrence of `spliceBlock` splices the surrounding text into a fresh
`\end{minipage}` occurrence, which survives `setColumnFormat`. -/
theorem claim8_counterexample :
    containsSub endMinipage (setColumnFormat spliceBlock [] []) = true := by
  decide

/-- Witness for claim C9 (amended) at a concrete rewritten block. -/
theorem claim9_witness :
    postProcessLatexTable cfgPlain table6 = Except.ok table6 ∧
    (linesNT table6).all (fun l => !l.all pyIsSpace) = true := by
  have h : postProcessLatexTable cfgPlain table6 = Except.ok table6 := by
    decide
  exact ⟨h, claim9_no_blank_lines_in_block cfgPlain table6 table6 h⟩

/-- Counterexample for claim C9 as stated: the final output of the
rewriter keeps the blank line preceding the table block, so an empty
line remains in the final output. -/
theorem claim9_counterexample :
    postProcessLatexTables cfgPlain doc9 = Except.ok doc9 ∧
    (linesNT doc9).any (fun l => l.all pyIsSpace) = true :=
  ⟨by decide, by decide⟩

end ConvertTables
